import Mathlib

set_option maxHeartbeats 1000000

/-! Shallow embedding of `src/main.py`: a recursive merge sort over an
in-memory list of integers, together with the demonstration driver.
Python's in-place mutation of `arr` is modelled by explicit state
passing; every index write `arr[k] = v` and index read `L[i]`, `R[j]`
is Option-valued, so an out-of-range access yields `none`. -/

/-- Python `arr[k] = v`: fails (IndexError) when `k` is out of range,
otherwise replaces position `k`. -/
def setO (xs : List Int) (k : Nat) (v : Int) : Option (List Int) :=
  if k < xs.length then some (xs.set k v) else none

/-- Lines 14-21 of `src/main.py`: the first merge loop
(`while i < len(L) and j < len(R)`), comparing `L[i] < R[j]` and writing
the chosen element to `arr[k]`.  Returns the final `(arr, i, j, k)`. -/
def mergeLoop1 (L R arr : List Int) (i j k : Nat) :
    Option (List Int × Nat × Nat × Nat) :=
  if h : i < L.length ∧ j < R.length then
    match L[i]?, R[j]? with
    | some li, some rj =>
      if li < rj then
        match setO arr k li with
        | some arr2 => mergeLoop1 L R arr2 (i + 1) j (k + 1)
        | none => none
      else
        match setO arr k rj with
        | some arr2 => mergeLoop1 L R arr2 i (j + 1) (k + 1)
        | none => none
    | _, _ => none
  else some (arr, i, j, k)
termination_by (L.length - i) + (R.length - j)
decreasing_by
  · omega
  · omega

/-- Lines 24-27 of `src/main.py`: the drain loop for `L`
(`while i < len(L)`).  Returns the final `(arr, i, k)`. -/
def mergeLoop2 (L arr : List Int) (i k : Nat) :
    Option (List Int × Nat × Nat) :=
  if h : i < L.length then
    match L[i]? with
    | some li =>
      match setO arr k li with
      | some arr2 => mergeLoop2 L arr2 (i + 1) (k + 1)
      | none => none
    | none => none
  else some (arr, i, k)
termination_by L.length - i
decreasing_by
  · omega

/-- Lines 29-32 of `src/main.py`: the drain loop for `R`
(`while j < len(R)`).  Returns the final `(arr, j, k)`. -/
def mergeLoop3 (R arr : List Int) (j k : Nat) :
    Option (List Int × Nat × Nat) :=
  if h : j < R.length then
    match R[j]? with
    | some rj =>
      match setO arr k rj with
      | some arr2 => mergeLoop3 R arr2 (j + 1) (k + 1)
      | none => none
    | none => none
  else some (arr, j, k)
termination_by R.length - j
decreasing_by
  · omega

/-- Lines 11-32 of `src/main.py`: the whole merge section.  `merge_sort`
enters it with `i = j = k = 0`; it is stated for arbitrary cursors so
that it can be reasoned about by induction.  The cursors thread through
the loops exactly as the Python variables do: loop 2 continues from the
`i` and `k` left by loop 1, loop 3 from the `j` and the `k` left by
loop 2. -/
def mergePhases (L R arr : List Int) (i j k : Nat) : Option (List Int) :=
  (mergeLoop1 L R arr i j k).bind fun s1 =>
    (mergeLoop2 L s1.1 s1.2.1 s1.2.2.2).bind fun s2 =>
      (mergeLoop3 R s2.1 s1.2.2.1 s2.2.2).bind fun s3 =>
        some s3.1

/-- Lines 2-33 of `src/main.py`.  If the list has length > 1 it is split
at `mid = len(arr) // 2` into independent copies `L = arr[:mid]` and
`R = arr[mid:]`, the halves are recursively sorted, and the three merge
loops write the merged halves back into `arr` starting from
`i = j = k = 0`; otherwise `arr` is returned unchanged (`return arr`).
The returned list is the final state of the destination `arr`. -/
def merge_sort (arr : List Int) : Option (List Int) :=
  if h : arr.length > 1 then
    (merge_sort (arr.take (arr.length / 2))).bind fun L2 =>
      (merge_sort (arr.drop (arr.length / 2))).bind fun R2 =>
        mergePhases L2 R2 arr 0 0 0
  else some arr
termination_by arr.length
decreasing_by
  · simp only [List.length_take]
    omega
  · simp only [List.length_drop]
    omega

/-- Functional form of the merge loops: merges two lists front to back
with the source's comparison `L[i] < R[j]` (so ties are taken from the
right list).  Used as the specification that the stateful loops are
proved to implement. -/
def mergeL : List Int → List Int → List Int
  | [], R => R
  | L, [] => L
  | li :: L, rj :: R =>
    if li < rj then li :: mergeL L (rj :: R) else rj :: mergeL (li :: L) R
termination_by L R => L.length + R.length
decreasing_by
  · simp only [List.length_cons]
    omega
  · simp only [List.length_cons]
    omega

/-- Functional form of `merge_sort`: split at `len / 2`, recursively
sort the two copies, merge them.  `merge_sort` is proved to return
exactly `some (msort arr)`. -/
def msort (arr : List Int) : List Int :=
  if h : arr.length > 1 then
    mergeL (msort (arr.take (arr.length / 2)))
      (msort (arr.drop (arr.length / 2)))
  else arr
termination_by arr.length
decreasing_by
  · simp only [List.length_take]
    omega
  · simp only [List.length_drop]
    omega

/-! Lemmas about the functional merge. -/

theorem mergeL_nil_right (L : List Int) : mergeL L [] = L := by
  cases L <;> simp [mergeL]

theorem mergeL_perm (L R : List Int) : (mergeL L R).Perm (L ++ R) := by
  induction L, R using mergeL.induct with
  | case1 R => simp [mergeL]
  | case2 L h => simp [mergeL_nil_right]
  | case3 li L rj R hlt ih =>
    rw [mergeL, if_pos hlt]
    exact ih.cons li
  | case4 li L rj R hlt ih =>
    rw [mergeL, if_neg hlt]
    exact (ih.cons rj).trans List.perm_middle.symm

theorem mergeL_length (L R : List Int) :
    (mergeL L R).length = L.length + R.length := by
  have h := (mergeL_perm L R).length_eq
  simpa using h

theorem mem_mergeL (x : Int) (L R : List Int) :
    x ∈ mergeL L R ↔ x ∈ L ∨ x ∈ R := by
  rw [(mergeL_perm L R).mem_iff]
  simp

theorem mergeL_sorted (L R : List Int) (hL : List.Pairwise (· ≤ ·) L)
    (hR : List.Pairwise (· ≤ ·) R) :
    List.Pairwise (· ≤ ·) (mergeL L R) := by
  induction L, R using mergeL.induct with
  | case1 R => simpa [mergeL] using hR
  | case2 L h => simpa [mergeL_nil_right] using hL
  | case3 li L rj R hlt ih =>
    rw [mergeL, if_pos hlt]
    rw [List.pairwise_cons] at hL ⊢
    refine ⟨fun y hy => ?_, ih hL.2 hR⟩
    rcases (mem_mergeL y L (rj :: R)).mp hy with h | h
    · exact hL.1 y h
    · rcases List.mem_cons.mp h with rfl | h
      · exact le_of_lt hlt
      · exact le_trans (le_of_lt hlt) ((List.pairwise_cons.mp hR).1 y h)
  | case4 li L rj R hlt ih =>
    rw [mergeL, if_neg hlt]
    rw [List.pairwise_cons] at hR ⊢
    have hrl : rj ≤ li := le_of_not_lt hlt
    refine ⟨fun y hy => ?_, ih hL hR.2⟩
    rcases (mem_mergeL y (li :: L) R).mp hy with h | h
    · rcases List.mem_cons.mp h with rfl | h
      · exact hrl
      · exact le_trans hrl ((List.pairwise_cons.mp hL).1 y h)
    · exact hR.1 y h

/-! Lemmas about the functional sort. -/

theorem msort_perm (arr : List Int) : (msort arr).Perm arr := by
  induction arr using msort.induct with
  | case1 arr h ih1 ih2 =>
    rw [msort, dif_pos h]
    refine (mergeL_perm _ _).trans ?_
    refine (ih1.append ih2).trans ?_
    rw [List.take_append_drop]
  | case2 arr h =>
    rw [msort, dif_neg h]

theorem msort_length (arr : List Int) : (msort arr).length = arr.length :=
  (msort_perm arr).length_eq

theorem msort_sorted (arr : List Int) : List.Pairwise (· ≤ ·) (msort arr) := by
  induction arr using msort.induct with
  | case1 arr h ih1 ih2 =>
    rw [msort, dif_pos h]
    exact mergeL_sorted _ _ ih1 ih2
  | case2 arr h =>
    rw [msort, dif_neg h]
    rcases arr with _ | ⟨a, _ | ⟨b, t⟩⟩
    · exact List.Pairwise.nil
    · simp
    · simp at h

theorem msort_idem (S : List Int) : msort (msort S) = msort S :=
  List.eq_of_perm_of_sorted (msort_perm (msort S)) (msort_sorted (msort S))
    (msort_sorted S)

theorem msort_of_sorted (S : List Int) (hS : List.Pairwise (· ≤ ·) S) :
    msort S = S :=
  List.eq_of_perm_of_sorted (msort_perm S) (msort_sorted S) hS

/-! Simulation: the stateful merge loops implement the functional merge. -/

theorem take_set_succ (arr : List Int) (k : Nat) (v : Int)
    (hk : k < arr.length) :
    (arr.set k v).take (k + 1) = arr.take k ++ [v] := by
  induction arr generalizing k with
  | nil => simp at hk
  | cons a t ih =>
    cases k with
    | zero => simp
    | succ k =>
      have hk' : k < t.length := by simpa using hk
      simp only [List.set_cons_succ, List.take_succ_cons, ih k hk',
        List.cons_append]

theorem mergeLoop2_exact (L : List Int) (n : Nat) :
    ∀ (arr : List Int) (i k : Nat), L.length - i = n → i ≤ L.length →
      k + (L.length - i) = arr.length →
      mergeLoop2 L arr i k
        = some (arr.take k ++ L.drop i, L.length, arr.length) := by
  induction n with
  | zero =>
    intro arr i k hn hi hlen
    have hiL : i = L.length := by omega
    have hk : k = arr.length := by omega
    rw [mergeLoop2, dif_neg (by omega)]
    subst hiL hk
    simp [List.take_length, List.drop_length]
  | succ n ih =>
    intro arr i k hn hi hlen
    have hiL : i < L.length := by omega
    have hkA : k < arr.length := by omega
    rw [mergeLoop2, dif_pos hiL]
    simp only [List.getElem?_eq_getElem hiL, setO, if_pos hkA]
    rw [ih (arr.set k L[i]) (i + 1) (k + 1) (by omega) (by omega)
      (by simp only [List.length_set]; omega)]
    rw [take_set_succ arr k _ hkA, List.length_set, List.append_assoc,
      List.singleton_append, List.getElem_cons_drop]

theorem mergeLoop3_exact (R : List Int) (n : Nat) :
    ∀ (arr : List Int) (j k : Nat), R.length - j = n → j ≤ R.length →
      k + (R.length - j) = arr.length →
      mergeLoop3 R arr j k
        = some (arr.take k ++ R.drop j, R.length, arr.length) := by
  induction n with
  | zero =>
    intro arr j k hn hj hlen
    have hjR : j = R.length := by omega
    have hk : k = arr.length := by omega
    rw [mergeLoop3, dif_neg (by omega)]
    subst hjR hk
    simp [List.take_length, List.drop_length]
  | succ n ih =>
    intro arr j k hn hj hlen
    have hjR : j < R.length := by omega
    have hkA : k < arr.length := by omega
    rw [mergeLoop3, dif_pos hjR]
    simp only [List.getElem?_eq_getElem hjR, setO, if_pos hkA]
    rw [ih (arr.set k R[j]) (j + 1) (k + 1) (by omega) (by omega)
      (by simp only [List.length_set]; omega)]
    rw [take_set_succ arr k _ hkA, List.length_set, List.append_assoc,
      List.singleton_append, List.getElem_cons_drop]

theorem mergeLoop1_stop (L R arr : List Int) (i j k : Nat)
    (h : ¬(i < L.length ∧ j < R.length)) :
    mergeLoop1 L R arr i j k = some (arr, i, j, k) := by
  rw [mergeLoop1, dif_neg h]

theorem mergeLoop1_step_left (L R arr : List Int) (i j k : Nat)
    (hi : i < L.length) (hj : j < R.length) (hk : k < arr.length)
    (hlt : L[i] < R[j]) :
    mergeLoop1 L R arr i j k
      = mergeLoop1 L R (arr.set k L[i]) (i + 1) j (k + 1) := by
  rw [mergeLoop1, dif_pos ⟨hi, hj⟩]
  simp only [List.getElem?_eq_getElem hi, List.getElem?_eq_getElem hj,
    if_pos hlt, setO, if_pos hk]

theorem mergeLoop1_step_right (L R arr : List Int) (i j k : Nat)
    (hi : i < L.length) (hj : j < R.length) (hk : k < arr.length)
    (hge : ¬ L[i] < R[j]) :
    mergeLoop1 L R arr i j k
      = mergeLoop1 L R (arr.set k R[j]) i (j + 1) (k + 1) := by
  rw [mergeLoop1, dif_pos ⟨hi, hj⟩]
  simp only [List.getElem?_eq_getElem hi, List.getElem?_eq_getElem hj,
    if_neg hge, setO, if_pos hk]

theorem mergePhases_congr (L R arr arr' : List Int) (i j k i' j' k' : Nat)
    (h : mergeLoop1 L R arr i j k = mergeLoop1 L R arr' i' j' k') :
    mergePhases L R arr i j k = mergePhases L R arr' i' j' k' := by
  unfold mergePhases
  rw [h]

theorem mergePhases_eq (L R : List Int) (n : Nat) :
    ∀ (arr : List Int) (i j k : Nat),
      (L.length - i) + (R.length - j) = n → i ≤ L.length → j ≤ R.length →
      k = i + j → arr.length = L.length + R.length →
      mergePhases L R arr i j k
        = some (arr.take k ++ mergeL (L.drop i) (R.drop j)) := by
  induction n with
  | zero =>
    intro arr i j k hn hi hj hk hlen
    have hiL : i = L.length := by omega
    have hjR : j = R.length := by omega
    subst hiL hjR
    have hkA : k = arr.length := by omega
    unfold mergePhases
    rw [mergeLoop1_stop L R arr _ _ _ (by omega)]
    simp only [Option.some_bind]
    rw [mergeLoop2_exact L 0 arr L.length k (by omega) (by omega) (by omega)]
    simp only [Option.some_bind]
    rw [mergeLoop3_exact R 0 (arr.take k ++ L.drop L.length) R.length
      arr.length (by omega) (by omega)
      (by simp only [List.length_append, List.length_take, List.length_drop]
          omega)]
    simp only [Option.some_bind]
    simp [List.drop_length, mergeL, hkA, List.take_length]
  | succ n ih =>
    intro arr i j k hn hi hj hk hlen
    by_cases hguard : i < L.length ∧ j < R.length
    · obtain ⟨hiL, hjR⟩ := hguard
      have hkA : k < arr.length := by omega
      by_cases hlt : L[i] < R[j]
      · rw [mergePhases_congr L R arr (arr.set k L[i]) i j k (i + 1) j (k + 1)
          (mergeLoop1_step_left L R arr i j k hiL hjR hkA hlt)]
        rw [ih (arr.set k L[i]) (i + 1) j (k + 1) (by omega) (by omega)
          (by omega) (by omega) (by simp only [List.length_set]; omega)]
        have hm : mergeL (L.drop i) (R.drop j)
            = L[i] :: mergeL (L.drop (i + 1)) (R.drop j) := by
          conv_lhs => rw [← List.getElem_cons_drop L i hiL,
            ← List.getElem_cons_drop R j hjR]
          simp only [mergeL]
          rw [if_pos hlt, List.getElem_cons_drop R j hjR]
        rw [take_set_succ arr k _ hkA, hm, List.append_assoc,
          List.singleton_append]
      · rw [mergePhases_congr L R arr (arr.set k R[j]) i j k i (j + 1) (k + 1)
          (mergeLoop1_step_right L R arr i j k hiL hjR hkA hlt)]
        rw [ih (arr.set k R[j]) i (j + 1) (k + 1) (by omega) (by omega)
          (by omega) (by omega) (by simp only [List.length_set]; omega)]
        have hm : mergeL (L.drop i) (R.drop j)
            = R[j] :: mergeL (L.drop i) (R.drop (j + 1)) := by
          conv_lhs => rw [← List.getElem_cons_drop L i hiL,
            ← List.getElem_cons_drop R j hjR]
          simp only [mergeL]
          rw [if_neg hlt, List.getElem_cons_drop L i hiL]
        rw [take_set_succ arr k _ hkA, hm, List.append_assoc,
          List.singleton_append]
    · unfold mergePhases
      rw [mergeLoop1_stop L R arr i j k hguard]
      simp only [Option.some_bind]
      by_cases hiL : i < L.length
      · have hjR : j = R.length := by omega
        rw [mergeLoop2_exact L (L.length - i) arr i k rfl (by omega)
          (by omega)]
        simp only [Option.some_bind]
        rw [mergeLoop3, dif_neg (by omega)]
        simp only [Option.some_bind]
        rw [hjR, List.drop_length, mergeL_nil_right]
      · have hiL' : i = L.length := by omega
        rw [mergeLoop2, dif_neg (by omega)]
        simp only [Option.some_bind]
        rw [mergeLoop3_exact R (R.length - j) arr j k rfl (by omega)
          (by omega)]
        simp only [Option.some_bind]
        rw [hiL', List.drop_length]
        simp [mergeL]

/-- Central simulation result: the stateful, Option-valued `merge_sort`
never fails and returns exactly the functional `msort`. -/
theorem merge_sort_eq (arr : List Int) : merge_sort arr = some (msort arr) := by
  induction arr using msort.induct with
  | case1 arr h ih1 ih2 =>
    rw [merge_sort, dif_pos h, ih1, ih2]
    simp only [Option.some_bind]
    rw [mergePhases_eq (msort (arr.take (arr.length / 2)))
      (msort (arr.drop (arr.length / 2)))
      ((msort (arr.take (arr.length / 2))).length +
        (msort (arr.drop (arr.length / 2))).length)
      arr 0 0 0 (by omega) (by omega) (by omega) (by omega)
      (by simp only [msort_length, List.length_take, List.length_drop]
          omega)]
    conv_rhs => rw [msort, dif_pos h]
    simp
  | case2 arr h =>
    rw [merge_sort, dif_neg h, msort, dif_neg h]

/-! Keyed variant.  The spec's stability test sorts (key, tag) pairs by
key; the comparison is the source's `L[i] < R[j]` applied to keys, so
the variant below is the source algorithm with the element type
generalised and nothing else changed. -/

/-- Functional merge over (key, tag) pairs, comparing keys with the
source's strict `<` exactly as `mergeL` does for plain integers. -/
def mergeLK : List (Int × Nat) → List (Int × Nat) → List (Int × Nat)
  | [], R => R
  | L, [] => L
  | li :: L, rj :: R =>
    if li.1 < rj.1 then li :: mergeLK L (rj :: R) else rj :: mergeLK (li :: L) R
termination_by L R => L.length + R.length
decreasing_by
  · simp only [List.length_cons]
    omega
  · simp only [List.length_cons]
    omega

/-- Keyed form of the sort: same split at `len // 2`, same recursion,
same comparison on keys. -/
def msortK (arr : List (Int × Nat)) : List (Int × Nat) :=
  if h : arr.length > 1 then
    mergeLK (msortK (arr.take (arr.length / 2)))
      (msortK (arr.drop (arr.length / 2)))
  else arr
termination_by arr.length
decreasing_by
  · simp only [List.length_take]
    omega
  · simp only [List.length_drop]
    omega

/-! Demonstration driver, lines 42-44 of `src/main.py`. -/

/-- Value of an ASCII decimal digit, `none` for any other character. -/
def charDigit (c : Char) : Option Nat :=
  if '0' ≤ c ∧ c ≤ '9' then some (c.toNat - '0'.toNat) else none

/-- Folds decimal digits left to right onto an accumulator; fails at
the first non-digit character. -/
def digitsValAux : List Char → Nat → Option Nat
  | [], acc => some acc
  | c :: cs, acc =>
    match charDigit c with
    | some d => digitsValAux cs (acc * 10 + d)
    | none => none

/-- Model of Python's `int(token)` on a whitespace-free token: an
optional sign `+` or `-` followed by at least one decimal digit parses
to the corresponding integer; anything else raises `ValueError`,
modelled as `none`.  (Python's `int` also tolerates surrounding
whitespace and underscore grouping; tokens produced by `str.split()`
contain no whitespace, and grouping does not affect the claims treated
here.) -/
def parseInt (s : String) : Option Int :=
  match s.toList with
  | [] => none
  | '-' :: cs =>
    if cs = [] then none
    else (digitsValAux cs 0).map fun v => -(v : Int)
  | '+' :: cs =>
    if cs = [] then none
    else (digitsValAux cs 0).map fun v => (v : Int)
  | cs => (digitsValAux cs 0).map fun v => (v : Int)

/-- Line 43 of `src/main.py`: `list(map(int, user_input.split()))`
applied to the already-split tokens.  Python evaluates `int` on the
tokens in order and raises (modelled by `none`) at the first invalid
one. -/
def mapParse : List String → Option (List Int)
  | [] => some []
  | t :: ts =>
    match parseInt t with
    | some v =>
      match mapParse ts with
      | some vs => some (v :: vs)
      | none => none
    | none => none

/-- Lines 42-44 of `src/main.py`: the driver parses the whole input
line into `user_array` and only then calls `merge_sort` on it. -/
def driverSort (tokens : List String) : Option (List Int) :=
  (mapParse tokens).bind merge_sort

/-- Post-call contents of the argument `arr` of `merge_sort`: the
recursive calls on lines 8-9 operate on the copies `L` and `R`, so the
argument is written only by the merge loops (when its length is > 1)
and is untouched otherwise. -/
def argAfterCall (S : List Int) : Option (List Int) :=
  if h : S.length > 1 then
    (merge_sort (S.take (S.length / 2))).bind fun L2 =>
      (merge_sort (S.drop (S.length / 2))).bind fun R2 =>
        mergePhases L2 R2 S 0 0 0
  else some S

theorem mapParse_none_iff (ts : List String) :
    mapParse ts = none ↔ ∃ t ∈ ts, parseInt t = none := by
  induction ts with
  | nil => simp [mapParse]
  | cons t ts ih =>
    simp only [mapParse]
    cases hp : parseInt t with
    | none =>
      constructor
      · intro _
        exact ⟨t, List.mem_cons_self t ts, hp⟩
      · intro _
        rfl
    | some v =>
      cases hm : mapParse ts with
      | none =>
        constructor
        · intro _
          obtain ⟨x, hx, hnone⟩ := ih.mp hm
          exact ⟨x, List.mem_cons_of_mem t hx, hnone⟩
        · intro _
          rfl
      | some vs =>
        constructor
        · intro hcontra
          exact Option.noConfusion hcontra
        · rintro ⟨x, hx, hnone⟩
          rcases List.mem_cons.mp hx with rfl | hx2
          · rw [hp] at hnone
            exact Option.noConfusion hnone
          · have h2 : mapParse ts = none := ih.mpr ⟨x, hx2, hnone⟩
            rw [hm] at h2
            exact Option.noConfusion h2

/-! Claim theorems. -/

/-- C1: for every finite integer sequence `S`, `merge_sort S` succeeds,
and the result is in non-descending order: for all valid indices
`i < j` into the result, `result[i] <= result[j]`. -/
theorem merge_sort_result_sorted (S t : List Int)
    (ht : merge_sort S = some t) :
    ∀ (i j : Nat) (hi : i < t.length) (hj : j < t.length), i < j →
      t[i] ≤ t[j] := by
  rw [merge_sort_eq] at ht
  have h1 : msort S = t := Option.some.inj ht
  subst h1
  have hp := msort_sorted S
  rw [List.pairwise_iff_getElem] at hp
  intro i j hi hj hij
  exact hp i j hi hj hij

theorem merge_sort_result_sorted_witness :
    ([1, 2, 3] : List Int)[0] ≤ [1, 2, 3][1] :=
  merge_sort_result_sorted [3, 1, 2] [1, 2, 3]
    (by rw [merge_sort_eq]; simp [msort, mergeL])
    0 1 (by decide) (by decide) (by decide)

/-- C2: `merge_sort S` succeeds and returns a permutation of `S`: the
same length and the same multiset of elements (every value occurs
equally often in input and output). -/
theorem merge_sort_result_perm (S t : List Int)
    (ht : merge_sort S = some t) :
    t.Perm S ∧ t.length = S.length ∧ ∀ x : Int, t.count x = S.count x := by
  rw [merge_sort_eq] at ht
  have h1 : msort S = t := Option.some.inj ht
  subst h1
  refine ⟨msort_perm S, msort_length S, fun x => ?_⟩
  exact (msort_perm S).count_eq x

theorem merge_sort_result_perm_witness :
    ([1, 1, 2] : List Int).Perm [2, 1, 1] ∧
      ([1, 1, 2] : List Int).length = [2, 1, 1].length ∧
      ([1, 1, 2] : List Int).count 1 = [2, 1, 1].count 1 :=
  have h := merge_sort_result_perm [2, 1, 1] [1, 1, 2]
    (by rw [merge_sort_eq]; simp [msort, mergeL])
  ⟨h.1, h.2.1, h.2.2 1⟩

/-- C3 counterexample: the source compares with strict `<`
(line 15: `if L[i] < R[j]`), so on the tie `L[0] = R[0] = 1` the merge
loop copies from `R` and advances `j` (final cursors `i = 0`, `j = 1`),
not from `L` as the claim states; consequently, under the spec's own
keyed stability test, the input `[(1, tag 0), (1, tag 1)]` comes out
with the equal-keyed elements in reversed order, so the sort is not
stable. -/
theorem merge_tie_counterexample :
    mergeLoop1 [1] [1] [5, 5] 0 0 0 = some ([1, 5], 0, 1, 1) ∧
      msortK [(1, 0), (1, 1)] = [(1, 1), (1, 0)] ∧
      [((1 : Int), (1 : Nat)), (1, 0)] ≠ [(1, 0), (1, 1)] := by
  refine ⟨?_, ?_, by decide⟩
  · simp [mergeLoop1, setO]
  · simp [msortK, mergeLK]

/-- C3 (amended): in the merge step, whenever both cursors are in range
and `L[i] = R[j]`, the code's strict comparison `L[i] < R[j]` fails, so
the element is copied from the right half and `j` advances: ties are
resolved in favor of `R`, and equal elements from the right half are
placed before the left half's (the sort is not stable; on plain
integers the output values are nonetheless identical). -/
theorem merge_tie_from_right (L R arr : List Int) (i j k : Nat)
    (hi : i < L.length) (hj : j < R.length) (hk : k < arr.length)
    (heq : L[i] = R[j]) :
    mergeLoop1 L R arr i j k
      = mergeLoop1 L R (arr.set k R[j]) i (j + 1) (k + 1) :=
  mergeLoop1_step_right L R arr i j k hi hj hk (by rw [heq]; exact lt_irrefl _)

theorem merge_tie_from_right_witness :
    mergeLoop1 [1] [1] [5, 5] 0 0 0 = mergeLoop1 [1] [1] [1, 5] 0 1 1 := by
  have h := merge_tie_from_right [1] [1] [5, 5] 0 0 0 (by decide) (by decide)
    (by decide) (by decide)
  simpa using h

/-- C4: the empty list and every one-element list are valid inputs and
are returned unchanged: the guard `len(arr) > 1` is false, so no split,
no recursion and no merge work happens and `return arr` returns the
argument as-is. -/
theorem merge_sort_base_cases :
    merge_sort ([] : List Int) = some [] ∧
      ∀ x : Int, merge_sort [x] = some [x] := by
  constructor
  · rw [merge_sort, dif_neg (by simp)]
  · intro x
    rw [merge_sort, dif_neg (by simp)]

/-- C5: sorting is idempotent: whatever list `merge_sort` returns is a
fixed point of `merge_sort`, and sorting an already-sorted list changes
nothing. -/
theorem merge_sort_idempotent (S t : List Int)
    (ht : merge_sort S = some t) :
    merge_sort t = some t ∧ (List.Pairwise (· ≤ ·) S → t = S) := by
  rw [merge_sort_eq] at ht
  have h1 : msort S = t := Option.some.inj ht
  subst h1
  constructor
  · rw [merge_sort_eq, msort_idem]
  · intro hS
    exact msort_of_sorted S hS

theorem merge_sort_idempotent_witness :
    merge_sort [1, 2, 3] = some [1, 2, 3] ∧ ([1, 2, 3] : List Int) = [1, 2, 3] :=
  have h := merge_sort_idempotent [1, 2, 3] [1, 2, 3]
    (by rw [merge_sort_eq]; simp [msort, mergeL])
  ⟨h.1, h.2 (by decide)⟩

/-- C6: for a list of length > 1 the split at `mid = len // 2` produces
`L` equal to the first `mid` elements and `R` equal to the remaining
`n - mid` elements, and they reassemble to the original list; the
halves are independent copies in the sense that after both recursive
sorts the merge loops still read the original, unaltered `S` as their
destination. -/
theorem merge_sort_split (S : List Int) (h : S.length > 1) :
    (S.take (S.length / 2)).length = S.length / 2 ∧
      (S.drop (S.length / 2)).length = S.length - S.length / 2 ∧
      S.take (S.length / 2) ++ S.drop (S.length / 2) = S ∧
      merge_sort S
        = mergePhases (msort (S.take (S.length / 2)))
            (msort (S.drop (S.length / 2))) S 0 0 0 := by
  refine ⟨by simp only [List.length_take]; omega,
    by simp only [List.length_drop], List.take_append_drop _ _, ?_⟩
  rw [merge_sort, dif_pos h, merge_sort_eq, merge_sort_eq]
  simp only [Option.some_bind]

theorem merge_sort_split_witness :
    ([2, 1] : List Int).length > 1 ∧
      (([2, 1] : List Int).take 1).length = 1 ∧
      (([2, 1] : List Int).drop 1).length = 1 ∧
      ([2, 1] : List Int).take 1 ++ [2, 1].drop 1 = [2, 1] ∧
      merge_sort [2, 1] = mergePhases (msort [2]) (msort [1]) [2, 1] 0 0 0 :=
  ⟨by decide, merge_sort_split [2, 1] (by decide)⟩

/-- C7: each recursive call receives a strictly shorter list (both
halves have length < n when n > 1), and `merge_sort` is total: on every
finite input it returns a value. -/
theorem merge_sort_terminates (S : List Int) :
    (S.length > 1 →
      (S.take (S.length / 2)).length < S.length ∧
        (S.drop (S.length / 2)).length < S.length) ∧
      ∃ t, merge_sort S = some t := by
  constructor
  · intro h
    constructor
    · simp only [List.length_take]
      omega
    · simp only [List.length_drop]
      omega
  · exact ⟨msort S, merge_sort_eq S⟩

theorem merge_sort_terminates_witness :
    ((([3, 1, 2] : List Int).take 1).length < 3 ∧
        (([3, 1, 2] : List Int).drop 1).length < 3) ∧
      ∃ t, merge_sort [3, 1, 2] = some t :=
  ⟨(merge_sort_terminates [3, 1, 2]).1 (by decide),
    (merge_sort_terminates [3, 1, 2]).2⟩

/-- C8: the driver's parse of the split input line fails exactly when
some token is not a valid integer, a parse failure aborts the driver
before any sorting, and a successful run sorts exactly the fully parsed
token list, so `merge_sort` never receives malformed data. -/
theorem driverSort_parse (tokens : List String) :
    (mapParse tokens = none ↔ ∃ t ∈ tokens, parseInt t = none) ∧
      (mapParse tokens = none → driverSort tokens = none) ∧
      ∀ out, driverSort tokens = some out →
        ∃ arr, mapParse tokens = some arr ∧ merge_sort arr = some out := by
  refine ⟨mapParse_none_iff tokens, ?_, ?_⟩
  · intro h
    rw [driverSort, h]
    rfl
  · intro out hout
    cases hm : mapParse tokens with
    | none =>
      rw [driverSort, hm] at hout
      exact Option.noConfusion hout
    | some arr =>
      refine ⟨arr, rfl, ?_⟩
      rw [driverSort, hm, Option.some_bind] at hout
      exact hout

theorem driverSort_parse_witness :
    (∃ arr, mapParse ["5", "3", "1", "4", "2"] = some arr ∧
        merge_sort arr = some [1, 2, 3, 4, 5]) ∧
      mapParse ["5", "x"] = none :=
  ⟨(driverSort_parse ["5", "3", "1", "4", "2"]).2.2 [1, 2, 3, 4, 5]
      (by rw [driverSort,
            show mapParse ["5", "3", "1", "4", "2"] = some [5, 3, 1, 4, 2] from by
              decide,
            Option.some_bind, merge_sort_eq]
          simp [msort, mergeL]),
    (driverSort_parse ["5", "x"]).1.mpr
      ⟨"x", by decide, by decide⟩⟩

/-- C9: `merge_sort` returns exactly the post-call contents of its
argument: in the state-passing embedding, the value of `return arr` on
line 33 coincides, for every input, with the final destination state
(`S` rewritten by the merge loops when the length exceeds 1, `S` itself
otherwise), so reading the return value and reading the mutated
argument after the call give the same sequence. -/
theorem merge_sort_returns_argument (S : List Int) :
    merge_sort S = argAfterCall S := by
  rw [merge_sort, argAfterCall]

/-- C10: every index access inside `merge_sort` is in bounds: in the
embedding where each read `L[i]`, `R[j]` and each write `arr[k]` is
Option-valued and out-of-range access produces `none`, `merge_sort`
never returns `none` on any input list. -/
theorem merge_sort_no_index_error (S : List Int) :
    (merge_sort S).isSome = true := by
  rw [merge_sort_eq]
  rfl
